import Mathlib

/-!
Shallow embedding of the SMF (Standard MIDI File) chunk/track codec from
`src/smf.rs`: chunk framing, header/track enumeration, eager event-stream
collection, the sequential/parallel decode paths, structural validation and
the encoder. The compile-time `strict` feature flag is modelled as an explicit
boolean parameter; byte strings are lists of naturals; the opaque external
event codec is a parameter.
-/

/-- Error taxonomy of the decode side: `invalid` for input not recognizable
as the format at all, `malformed` for structural violations of format rules. -/
inductive MidiError where
  | invalid (msg : String)
  | malformed (msg : String)
  deriving DecidableEq, Repr

/-- Encode-side error: a size exceeding a wire limit. -/
inductive EncodeError where
  | invalidInput (msg : String)
  deriving DecidableEq, Repr

/-- Rust `split_checked(n)` on a byte slice: split off the first `n` bytes if
at least `n` remain, advancing the cursor. -/
def split_checked (n : Nat) (raw : List Nat) : Option (List Nat × List Nat) :=
  if n ≤ raw.length then some (raw.take n, raw.drop n) else none

/-- Big-endian value of a byte list. -/
def beVal (bs : List Nat) : Nat :=
  bs.foldl (fun acc b => acc * 256 + b) 0

/-- Modelled from the spec: `u16::read` from the primitive codec module (not
under `src/`) reads a big-endian `u16`, failing if fewer than 2 bytes remain. -/
def readU16 (raw : List Nat) : Option (Nat × List Nat) :=
  (split_checked 2 raw).map fun p => (beVal p.1, p.2)

/-- Modelled from the spec: `u32::read` from the primitive codec module (not
under `src/`) reads a big-endian `u32`, failing if fewer than 4 bytes remain. -/
def readU32 (raw : List Nat) : Option (Nat × List Nat) :=
  (split_checked 4 raw).map fun p => (beVal p.1, p.2)

/-- Big-endian 2-byte encoding of a value. -/
def u16be (n : Nat) : List Nat :=
  [n / 256 % 256, n % 256]

/-- Big-endian 4-byte encoding of a value. -/
def u32be (n : Nat) : List Nat :=
  [n / 2 ^ 24 % 256, n / 2 ^ 16 % 256, n / 2 ^ 8 % 256, n % 256]

/-- Modelled from the spec: the header's format field (u16: 0 = single track,
1 = synchronous multi-track, 2 = asynchronous multi-track); its codec lives in
the primitive module, not under `src/`. -/
inductive Format where
  | singleTrack
  | multiTrackSync
  | multiTrackAsync
  deriving DecidableEq, Repr

/-- Modelled from the spec: decode the format field from a u16. -/
def Format.read (raw : List Nat) : Except MidiError (Format × List Nat) :=
  match readU16 raw with
  | none => .error (.invalid "failed to read u16")
  | some (v, rest) =>
    match v with
    | 0 => .ok (.singleTrack, rest)
    | 1 => .ok (.multiTrackSync, rest)
    | 2 => .ok (.multiTrackAsync, rest)
    | _ => .error (.invalid "invalid smf format")

/-- Modelled from the spec: encode the format field as a big-endian u16. -/
def Format.encode : Format → List Nat
  | .singleTrack => u16be 0
  | .multiTrackSync => u16be 1
  | .multiTrackAsync => u16be 2

/-- Modelled from the spec: the timing field (u16 big-endian; high bit clear
means metrical ticks-per-beat in the low 15 bits; high bit set means the first
byte is the raw signed frame-rate byte and the second the ticks per frame).
Its codec lives in the primitive module, not under `src/`. -/
inductive Timing where
  | metrical (ticksPerBeat : Nat)
  | timecode (fpsByte : Nat) (ticksPerFrame : Nat)
  deriving DecidableEq, Repr

/-- Modelled from the spec: decode the timing field from a u16. -/
def Timing.read (raw : List Nat) : Except MidiError (Timing × List Nat) :=
  match readU16 raw with
  | none => .error (.invalid "failed to read u16")
  | some (v, rest) =>
    if v < 2 ^ 15 then .ok (.metrical v, rest)
    else .ok (.timecode (v / 256) (v % 256), rest)

/-- Modelled from the spec: encode the timing field as two bytes. -/
def Timing.encode : Timing → List Nat
  | .metrical tpb => u16be tpb
  | .timecode fb tpf => [fb, tpf]

/-- A MIDI file header: format and timing. -/
structure Header where
  format : Format
  timing : Timing
  deriving DecidableEq, Repr

/-- `Header::read`: read the format, the declared track count and the timing
from the header chunk payload; trailing payload bytes are ignored. -/
def Header.read (raw : List Nat) : Except MidiError (Header × Nat) :=
  match Format.read raw with
  | .error e => .error e
  | .ok (format, raw1) =>
    match readU16 raw1 with
    | none => .error (.invalid "failed to read u16")
    | some (track_count, raw2) =>
      match Timing.read raw2 with
      | .error e => .error e
      | .ok (timing, _) => .ok (⟨format, timing⟩, track_count)

/-- `Header::encode`: the six payload bytes of a header chunk. -/
def Header.encode (h : Header) (track_count : Nat) : List Nat :=
  h.format.encode ++ u16be track_count ++ h.timing.encode

/-- The ASCII chunk id `"MThd"`. -/
def mthdId : List Nat := [0x4d, 0x54, 0x68, 0x64]

/-- The ASCII chunk id `"MTrk"`. -/
def mtrkId : List Nat := [0x4d, 0x54, 0x72, 0x6b]

/-- A classified chunk: a header chunk (with its declared track count) or a
track chunk (its raw payload span). -/
inductive Chunk where
  | header (h : Header) (track_count : Nat)
  | track (data : List Nat)
  deriving DecidableEq, Repr

/-- The chunk-payload extraction step of `Chunk::read`: split off the declared
length; if fewer bytes remain, lenient policy takes the remainder of the
buffer as the payload while strict policy fails with a malformed error. -/
def chunkData (strict : Bool) (len : Nat) (rest : List Nat) :
    Except MidiError (List Nat × List Nat) :=
  match split_checked len rest with
  | some p => .ok p
  | none =>
    if strict then .error (.malformed "reached eof before chunk ended")
    else .ok (rest, [])

theorem split_checked_some {n : Nat} {raw a b : List Nat}
    (h : split_checked n raw = some (a, b)) :
    a = raw.take n ∧ b = raw.drop n ∧ n ≤ raw.length := by
  unfold split_checked at h
  split at h
  · cases h
    exact ⟨rfl, rfl, by assumption⟩
  · cases h

theorem readU32_some {raw : List Nat} {len : Nat} {rest : List Nat}
    (h : readU32 raw = some (len, rest)) :
    rest = raw.drop 4 ∧ 4 ≤ raw.length := by
  unfold readU32 at h
  cases hs : split_checked 4 raw with
  | none => rw [hs] at h; cases h
  | some p =>
    obtain ⟨a, b⟩ := p
    rw [hs] at h
    obtain ⟨-, h2, h3⟩ := split_checked_some hs
    simp only [Option.map] at h
    cases h
    exact ⟨h2, h3⟩

theorem chunkData_ok_length {strict : Bool} {len : Nat} {rest cdata rest3 : List Nat}
    (h : chunkData strict len rest = .ok (cdata, rest3)) :
    rest3.length ≤ rest.length := by
  unfold chunkData at h
  cases hs : split_checked len rest with
  | some p =>
    obtain ⟨a, b⟩ := p
    rw [hs] at h
    obtain ⟨-, h2, -⟩ := split_checked_some hs
    cases h
    simp [h2]
  | none =>
    rw [hs] at h
    cases strict
    · simp only [Bool.false_eq_true, if_neg, ite_false] at h
      cases h
      simp
    · cases h

/-- The id/length/payload extraction step of the `Chunk::read` loop body:
read the 4-byte id and big-endian u32 length, then extract the payload via
`chunkData`; `.ok none` signals clean end of input (cursor exactly at EOF). -/
def readFrame (strict : Bool) (raw : List Nat) :
    Except MidiError (Option (List Nat × List Nat × List Nat)) :=
  if raw = [] then .ok none
  else
    match split_checked 4 raw with
    | none => .error (.invalid "failed to read chunkid")
    | some (id, rest) =>
      match readU32 rest with
      | none => .error (.invalid "failed to read chunklen")
      | some (len, rest2) =>
        match chunkData strict len rest2 with
        | .error e => .error e
        | .ok (cdata, rest3) => .ok (some (id, cdata, rest3))

theorem readFrame_some_lt {strict : Bool} {raw : List Nat} {id cdata rest3 : List Nat}
    (h : readFrame strict raw = .ok (some (id, cdata, rest3))) :
    rest3.length < raw.length := by
  unfold readFrame at h
  split at h
  · cases h
  · rename_i hne
    cases h4 : split_checked 4 raw with
    | none => simp only [h4] at h; cases h
    | some p =>
      obtain ⟨i, rest⟩ := p
      simp only [h4] at h
      cases h8 : readU32 rest with
      | none => simp only [h8] at h; cases h
      | some q =>
        obtain ⟨len, rest2⟩ := q
        simp only [h8] at h
        cases hc : chunkData strict len rest2 with
        | error e => simp only [hc] at h; cases h
        | ok r =>
          obtain ⟨cd, r3⟩ := r
          simp only [hc] at h
          cases h
          obtain ⟨-, hb, hn⟩ := split_checked_some h4
          obtain ⟨hb2, hn2⟩ := readU32_some h8
          have h3 := chunkData_ok_length hc
          have hr1 : rest.length = raw.length - 4 := by rw [hb]; simp
          have hr2 : rest2.length = rest.length - 4 := by rw [hb2]; simp
          have hne' : raw.length ≠ 0 := by
            intro hz
            exact hne (List.eq_nil_of_length_eq_zero hz)
          omega

/-- `Chunk::read`: read the next chunk from the cursor, skipping unknown
chunks; `.ok none` signals clean end of input. Errors: unreadable id or
length are `invalid`; a truncated payload is `malformed` under strict policy
and takes the remainder of the buffer under lenient policy (`readFrame`). -/
def Chunk.read (strict : Bool) (raw : List Nat) :
    Except MidiError (Option (Chunk × List Nat)) :=
  match hf : readFrame strict raw with
  | .error e => .error e
  | .ok none => .ok none
  | .ok (some (id, cdata, rest3)) =>
    if id = mthdId then
      match Header.read cdata with
      | .error e => .error e
      | .ok (h, tc) => .ok (some (.header h tc, rest3))
    else if id = mtrkId then .ok (some (.track cdata, rest3))
    else Chunk.read strict rest3
termination_by raw.length
decreasing_by
  exact readFrame_some_lt hf

theorem Chunk.read_eq (strict : Bool) (raw : List Nat) :
    Chunk.read strict raw =
      match readFrame strict raw with
      | .error e => .error e
      | .ok none => .ok none
      | .ok (some (id, cdata, rest3)) =>
        if id = mthdId then
          match Header.read cdata with
          | .error e => .error e
          | .ok (h, tc) => .ok (some (.header h tc, rest3))
        else if id = mtrkId then .ok (some (.track cdata, rest3))
        else Chunk.read strict rest3 := by
  rw [Chunk.read.eq_def]
  cases hf : readFrame strict raw with
  | error e => rfl
  | ok o =>
    cases o with
    | none => rfl
    | some t => rfl


theorem Chunk.read_nil (strict : Bool) : Chunk.read strict [] = .ok none := by
  rw [Chunk.read_eq]
  rfl

theorem Chunk.read_some_lt {strict : Bool} {raw : List Nat} {c : Chunk} {rest : List Nat}
    (h : Chunk.read strict raw = .ok (some (c, rest))) : rest.length < raw.length := by
  induction raw using Chunk.read.induct with
  | strict => exact strict
  | case1 x e hf =>
    rw [Chunk.read_eq] at h
    simp only [hf] at h
    cases h
  | case2 x hf =>
    rw [Chunk.read_eq] at h
    simp only [hf] at h
    cases h
  | case3 x cdata rest3 e hh hf =>
    rw [Chunk.read_eq] at h
    simp [hf, hh] at h
  | case4 x cdata rest3 hd tc hh hf =>
    rw [Chunk.read_eq] at h
    simp [hf, hh] at h
    obtain ⟨h1, h2⟩ := h
    exact h2 ▸ readFrame_some_lt hf
  | case5 x cdata rest3 hf hne =>
    rw [Chunk.read_eq] at h
    simp [hf, hne] at h
    obtain ⟨h1, h2⟩ := h
    exact h2 ▸ readFrame_some_lt hf
  | case6 x id cdata rest3 hf hid1 hid2 ih =>
    rw [Chunk.read_eq] at h
    simp only [hf, hid1, hid2, if_neg, ite_false] at h
    exact Nat.lt_trans (ih h) (readFrame_some_lt hf)

theorem beVal_u16be {n : Nat} (h : n < 2 ^ 16) : beVal (u16be n) = n := by
  simp [beVal, u16be, List.foldl]
  omega

theorem beVal_u32be {n : Nat} (h : n < 2 ^ 32) : beVal (u32be n) = n := by
  simp [beVal, u32be, List.foldl]
  omega

theorem u16be_length (n : Nat) : (u16be n).length = 2 := rfl

theorem u32be_length (n : Nat) : (u32be n).length = 4 := rfl

theorem split_checked_exact {n : Nat} {xs rest : List Nat} (h : xs.length = n) :
    split_checked n (xs ++ rest) = some (xs, rest) := by
  unfold split_checked
  rw [if_pos (by simp [← h])]
  rw [← h, List.take_left, List.drop_left]

theorem readU16_exact {xs rest : List Nat} (h : xs.length = 2) :
    readU16 (xs ++ rest) = some (beVal xs, rest) := by
  unfold readU16
  rw [split_checked_exact h]
  rfl

theorem readU32_exact {xs rest : List Nat} (h : xs.length = 4) :
    readU32 (xs ++ rest) = some (beVal xs, rest) := by
  unfold readU32
  rw [split_checked_exact h]
  rfl

theorem readU32_u32be {n : Nat} {rest : List Nat} (h : n < 2 ^ 32) :
    readU32 (u32be n ++ rest) = some (n, rest) := by
  rw [readU32_exact (u32be_length n), beVal_u32be h]

theorem readU16_u16be {n : Nat} {rest : List Nat} (h : n < 2 ^ 16) :
    readU16 (u16be n ++ rest) = some (n, rest) := by
  rw [readU16_exact (u16be_length n), beVal_u16be h]

theorem readFrame_exact {strict : Bool} {id payload rest : List Nat}
    (hid : id.length = 4) (hlen : payload.length < 2 ^ 32) :
    readFrame strict (id ++ u32be payload.length ++ (payload ++ rest)) =
      .ok (some (id, payload, rest)) := by
  unfold readFrame
  have hne : id ++ u32be payload.length ++ (payload ++ rest) ≠ [] := by
    intro hz
    have := congrArg List.length hz
    simp [hid] at this
  rw [if_neg hne]
  rw [List.append_assoc id (u32be payload.length) (payload ++ rest)]
  simp only [split_checked_exact hid, readU32_u32be hlen, chunkData,
    split_checked_exact (Eq.refl payload.length)]

/-- The raw bytes of a framed chunk: id, big-endian u32 length, payload. -/
def chunkBytes (id payload : List Nat) : List Nat :=
  id ++ u32be payload.length ++ payload

theorem chunkBytes_append (id payload rest : List Nat) :
    chunkBytes id payload ++ rest = id ++ u32be payload.length ++ (payload ++ rest) := by
  simp [chunkBytes]

theorem readFrame_chunkBytes {strict : Bool} {id payload rest : List Nat}
    (hid : id.length = 4) (hlen : payload.length < 2 ^ 32) :
    readFrame strict (chunkBytes id payload ++ rest) = .ok (some (id, payload, rest)) := by
  rw [chunkBytes_append]
  exact readFrame_exact hid hlen

theorem mthdId_length : mthdId.length = 4 := rfl

theorem mtrk_ne_mthd : mtrkId ≠ mthdId := by decide

theorem mtrkId_length : mtrkId.length = 4 := rfl

theorem Chunk.read_mtrk {strict : Bool} {payload rest : List Nat}
    (hlen : payload.length < 2 ^ 32) :
    Chunk.read strict (chunkBytes mtrkId payload ++ rest) =
      .ok (some (.track payload, rest)) := by
  rw [Chunk.read_eq]
  simp only [readFrame_chunkBytes mtrkId_length hlen, mtrk_ne_mthd, if_neg, ite_false,
    if_pos, ite_true]

theorem Chunk.read_mthd {strict : Bool} {payload rest : List Nat}
    (hlen : payload.length < 2 ^ 32) :
    Chunk.read strict (chunkBytes mthdId payload ++ rest) =
      (match Header.read payload with
       | .error e => .error e
       | .ok (h, tc) => .ok (some (.header h tc, rest))) := by
  rw [Chunk.read_eq]
  simp only [readFrame_chunkBytes mthdId_length hlen, if_pos, ite_true]

theorem Chunk.read_unknown {strict : Bool} {id payload rest : List Nat}
    (hid : id.length = 4) (h1 : id ≠ mthdId) (h2 : id ≠ mtrkId)
    (hlen : payload.length < 2 ^ 32) :
    Chunk.read strict (chunkBytes id payload ++ rest) = Chunk.read strict rest := by
  rw [Chunk.read_eq]
  simp only [readFrame_chunkBytes hid hlen, h1, h2, if_neg, ite_false]

theorem format_read_encode (f : Format) (rest : List Nat) :
    Format.read (f.encode ++ rest) = .ok (f, rest) := by
  cases f <;> simp [Format.read, Format.encode, readU16_u16be (by norm_num : (0:Nat) < 2 ^ 16),
    readU16_u16be (by norm_num : (1:Nat) < 2 ^ 16), readU16_u16be (by norm_num : (2:Nat) < 2 ^ 16)]

/-- Validity of a timing value for encoding: a metrical value fits in 15 bits;
a timecode stores a frame-rate byte with its high bit set and a ticks-per-frame
byte. -/
def Timing.wf : Timing → Prop
  | .metrical tpb => tpb < 2 ^ 15
  | .timecode fb tpf => 2 ^ 7 ≤ fb ∧ fb < 2 ^ 8 ∧ tpf < 2 ^ 8

instance (t : Timing) : Decidable t.wf := by
  cases t <;> simp [Timing.wf] <;> infer_instance

theorem timing_read_encode {t : Timing} (hwf : t.wf) (rest : List Nat) :
    Timing.read (t.encode ++ rest) = .ok (t, rest) := by
  cases t with
  | metrical tpb =>
    simp only [Timing.wf] at hwf
    simp [Timing.read, Timing.encode, readU16_u16be (show tpb < 2 ^ 16 by omega), hwf]
    omega
  | timecode fb tpf =>
    simp only [Timing.wf] at hwf
    have hv : beVal [fb, tpf] = fb * 256 + tpf := by simp [beVal]
    have hread : readU16 ([fb, tpf] ++ rest) = some (fb * 256 + tpf, rest) := by
      rw [readU16_exact (by rfl), hv]
    simp only [Timing.encode, hread, Timing.read]
    rw [if_neg (by omega)]
    have h1 : (fb * 256 + tpf) / 256 = fb := by omega
    have h2 : (fb * 256 + tpf) % 256 = tpf := by omega
    rw [h1, h2]

theorem header_read_encode {h : Header} {tc : Nat} (hwf : h.timing.wf) (htc : tc < 2 ^ 16) :
    Header.read (Header.encode h tc) = .ok (h, tc) := by
  unfold Header.encode
  rw [List.append_assoc]
  unfold Header.read
  simp only [format_read_encode, readU16_u16be htc]
  rw [← List.append_nil h.timing.encode]
  simp only [timing_read_encode hwf]

/-- Modelled from the spec: the opaque external per-event codec (`Event::read`
and `Event::write` live outside `src/`). `read` decodes one event from the
front of a byte span, threading the running-status register (`none` is a
decode failure); `write` emits the event's bytes and the updated running
status. A successful read always consumes at least one byte (every event
record starts with a delta-time). -/
structure EventCodec (E : Type) where
  read : List Nat → Option Nat → Option (E × List Nat × Option Nat)
  write : E → Option Nat → List Nat × Option Nat
  read_consumes : ∀ raw rs out, read raw rs = some out → out.2.1.length < raw.length

variable {E : Type}

/-- `EventIter`: the lazy event decoder state for a single track; the byte
cursor plus the private running-status register. -/
structure EventIter where
  raw : List Nat
  running_status : Option Nat
  deriving DecidableEq, Repr

/-- `EventIter::new`: a fresh decoder over a track's byte span, with the
running status initialized to none. -/
def EventIter.new (raw : List Nat) : EventIter :=
  { raw := raw, running_status := none }

/-- `EventIter::collect`: eagerly decode events while bytes remain. On a
decode failure, strict policy fails with a malformed-event error while
lenient policy stops silently, keeping the events decoded so far. -/
def EventIter.collect (strict : Bool) (c : EventCodec E) (it : EventIter) :
    Except MidiError (List E) :=
  if it.raw = [] then .ok []
  else
    match hr : c.read it.raw it.running_status with
    | some (ev, raw', rs') =>
      match EventIter.collect strict c { raw := raw', running_status := rs' } with
      | .error e => .error e
      | .ok evs => .ok (ev :: evs)
    | none =>
      if strict then .error (.malformed "malformed event")
      else .ok []
termination_by it.raw.length
decreasing_by
  exact c.read_consumes it.raw it.running_status _ hr

/-- The decode trace of one track span: the events decoded up to the first
codec failure (or to exhaustion), with the remaining bytes and the running
status at that point. -/
def decodeSteps (c : EventCodec E) (raw : List Nat) (rs : Option Nat) :
    List E × List Nat × Option Nat :=
  if raw = [] then ([], raw, rs)
  else
    match hr : c.read raw rs with
    | some (ev, raw', rs') =>
      let p := decodeSteps c raw' rs'
      (ev :: p.1, p.2)
    | none => ([], raw, rs)
termination_by raw.length
decreasing_by
  exact c.read_consumes raw rs _ hr

theorem EventIter.collect_eq (strict : Bool) (c : EventCodec E) (it : EventIter) :
    EventIter.collect strict c it =
      (if it.raw = [] then .ok []
       else
         match c.read it.raw it.running_status with
         | some (ev, raw', rs') =>
           match EventIter.collect strict c { raw := raw', running_status := rs' } with
           | .error e => .error e
           | .ok evs => .ok (ev :: evs)
         | none =>
           if strict then .error (.malformed "malformed event")
           else .ok []) := by
  rw [EventIter.collect.eq_def]
  cases hr : c.read it.raw it.running_status with
  | none => rfl
  | some t => rfl

theorem decodeSteps_eq (c : EventCodec E) (raw : List Nat) (rs : Option Nat) :
    decodeSteps c raw rs =
      (if raw = [] then ([], raw, rs)
       else
         match c.read raw rs with
         | some (ev, raw', rs') =>
           let p := decodeSteps c raw' rs'
           (ev :: p.1, p.2)
         | none => ([], raw, rs)) := by
  rw [decodeSteps.eq_def]
  cases hr : c.read raw rs with
  | none => rfl
  | some t => rfl

/-- `ChunkIter::next`: flip `Chunk::read`'s result around; on an error the
cursor is forced to end of input so no chunk is ever derived from a corrupted
position afterwards. -/
def ChunkIter.next (strict : Bool) (raw : List Nat) :
    Option (Except MidiError Chunk) × List Nat :=
  match Chunk.read strict raw with
  | .ok (some (c, rest)) => (some (.ok c), rest)
  | .ok none => (none, raw)
  | .error e => (some (.error e), [])

theorem chunkIter_next_some_lt {strict : Bool} {raw : List Nat}
    {r : Except MidiError Chunk} {raw' : List Nat}
    (h : ChunkIter.next strict raw = (some r, raw')) : raw'.length < raw.length := by
  unfold ChunkIter.next at h
  cases hc : Chunk.read strict raw with
  | error e =>
    rw [hc] at h
    cases h
    cases hn : raw with
    | nil => rw [hn] at hc; rw [Chunk.read_nil] at hc; cases hc
    | cons a as => simp [hn]
  | ok o =>
    cases o with
    | none => rw [hc] at h; cases h
    | some t =>
      obtain ⟨c, rest⟩ := t
      rw [hc] at h
      cases h
      exact Chunk.read_some_lt hc

theorem ChunkIter.next_none {strict : Bool} {raw raw' : List Nat}
    (h : ChunkIter.next strict raw = (none, raw')) :
    Chunk.read strict raw = .ok none ∧ raw' = raw := by
  unfold ChunkIter.next at h
  cases hc : Chunk.read strict raw with
  | error e => rw [hc] at h; cases h
  | ok o =>
    cases o with
    | none => rw [hc] at h; cases h; exact ⟨rfl, rfl⟩
    | some t =>
      obtain ⟨c, rest⟩ := t
      rw [hc] at h
      cases h

theorem chunkIter_next_fst_some_lt {strict : Bool} {raw : List Nat}
    {r : Except MidiError Chunk}
    (h : (ChunkIter.next strict raw).1 = some r) :
    (ChunkIter.next strict raw).2.length < raw.length := by
  cases hn : ChunkIter.next strict raw with
  | mk fst snd =>
    rw [hn] at h
    cases h
    exact chunkIter_next_some_lt hn

/-- `TrackIter`: the stream of remaining chunks plus the declared track count
(used only as a size hint, decremented as chunks are consumed). -/
structure TrackIter where
  raw : List Nat
  track_count_hint : Nat
  deriving DecidableEq, Repr

/-- `TrackIter::next`: pull chunks until a track chunk is found. A duplicate
header chunk or a chunk-level error is a malformed error under strict policy
and is silently skipped under lenient policy. -/
def TrackIter.next (strict : Bool) (s : TrackIter) :
    Option (Except MidiError (List Nat)) × TrackIter :=
  match hn : (ChunkIter.next strict s.raw).1 with
  | none =>
    (none, { raw := (ChunkIter.next strict s.raw).2, track_count_hint := s.track_count_hint })
  | some r =>
    let s' : TrackIter :=
      { raw := (ChunkIter.next strict s.raw).2, track_count_hint := s.track_count_hint - 1 }
    match r with
    | .ok (.track t) => (some (.ok t), s')
    | .ok (.header _ _) =>
      if strict then (some (.error (.malformed "found duplicate header")), s')
      else TrackIter.next strict s'
    | .error _ =>
      if strict then (some (.error (.malformed "invalid chunk")), s')
      else TrackIter.next strict s'
termination_by s.raw.length
decreasing_by
  · exact chunkIter_next_fst_some_lt hn
  · exact chunkIter_next_fst_some_lt hn

theorem TrackIter.next_eq (strict : Bool) (s : TrackIter) :
    TrackIter.next strict s =
      (match (ChunkIter.next strict s.raw).1 with
       | none =>
         (none, { raw := (ChunkIter.next strict s.raw).2,
                  track_count_hint := s.track_count_hint })
       | some r =>
         let s' : TrackIter :=
           { raw := (ChunkIter.next strict s.raw).2,
             track_count_hint := s.track_count_hint - 1 }
         match r with
         | .ok (.track t) => (some (.ok t), s')
         | .ok (.header _ _) =>
           if strict then (some (.error (.malformed "found duplicate header")), s')
           else TrackIter.next strict s'
         | .error _ =>
           if strict then (some (.error (.malformed "invalid chunk")), s')
           else TrackIter.next strict s') := by
  rw [TrackIter.next.eq_def]
  split
  · rename_i heq
    simp only [heq]
  · rename_i r heq
    simp only [heq]
    cases r with
    | ok c => cases c <;> rfl
    | error e => rfl

theorem trackIter_next_some_lt {strict : Bool} {s : TrackIter}
    {r : Except MidiError (List Nat)} {s' : TrackIter}
    (h : TrackIter.next strict s = (some r, s')) : s'.raw.length < s.raw.length := by
  induction s using TrackIter.next.induct with
  | strict => exact strict
  | case1 x hn =>
    rw [TrackIter.next_eq] at h
    simp only [hn] at h
    cases h
  | case2 x t hn hn2 =>
    rw [TrackIter.next_eq] at h
    simp only [hn] at h
    cases h
    exact chunkIter_next_fst_some_lt hn
  | case3 x hd tc hn hs hn2 =>
    subst hs
    rw [TrackIter.next_eq] at h
    simp only [hn, ite_true] at h
    cases h
    exact chunkIter_next_fst_some_lt hn
  | case4 x s0 hd tc hn hs hn2 ih =>
    rw [Bool.not_eq_true] at hs
    subst hs
    rw [TrackIter.next_eq] at h
    simp only [hn, Bool.false_eq_true, ite_false] at h
    exact Nat.lt_trans (ih h) (chunkIter_next_fst_some_lt hn)
  | case5 x e hn hs hn2 =>
    subst hs
    rw [TrackIter.next_eq] at h
    simp only [hn, ite_true] at h
    cases h
    exact chunkIter_next_fst_some_lt hn
  | case6 x s0 e hn hs hn2 ih =>
    rw [Bool.not_eq_true] at hs
    subst hs
    rw [TrackIter.next_eq] at h
    simp only [hn, Bool.false_eq_true, ite_false] at h
    exact Nat.lt_trans (ih h) (chunkIter_next_fst_some_lt hn)

theorem trackIter_next_fst_some_lt {strict : Bool} {s : TrackIter}
    {r : Except MidiError (List Nat)}
    (h : (TrackIter.next strict s).1 = some r) :
    (TrackIter.next strict s).2.raw.length < s.raw.length := by
  cases hn : TrackIter.next strict s with
  | mk fst snd =>
    rw [hn] at h
    cases h
    exact trackIter_next_some_lt hn

/-- The chunk-capture pass of the parallel path
(`self.collect::<Result<Vec<_>>>()`): gather every track span in chunk order,
stopping at the first error. -/
def collectChunks (strict : Bool) (s : TrackIter) : Except MidiError (List (List Nat)) :=
  match hn : (TrackIter.next strict s).1 with
  | none => .ok []
  | some (.error e) => .error e
  | some (.ok t) =>
    match collectChunks strict (TrackIter.next strict s).2 with
    | .error e => .error e
    | .ok ts => .ok (t :: ts)
termination_by s.raw.length
decreasing_by
  exact trackIter_next_fst_some_lt hn

/-- The sequential decode path (`self.map(|r| r.and_then(&collect)).collect()`):
decode each track eagerly as it is pulled, stopping at the first error. -/
def collectTracksSeq (strict : Bool) (c : EventCodec E) (s : TrackIter) :
    Except MidiError (List (List E)) :=
  match hn : (TrackIter.next strict s).1 with
  | none => .ok []
  | some (.error e) => .error e
  | some (.ok t) =>
    match EventIter.collect strict c (EventIter.new t) with
    | .error e => .error e
    | .ok evs =>
      match collectTracksSeq strict c (TrackIter.next strict s).2 with
      | .error e => .error e
      | .ok rest => .ok (evs :: rest)
termination_by s.raw.length
decreasing_by
  exact trackIter_next_fst_some_lt hn

/-- First-error sequencing of an effectful map over a list
(`Iterator::collect` into `Result<Vec<_>>`). -/
def mapExcept {α β ε : Type} (f : α → Except ε β) : List α → Except ε (List β)
  | [] => .ok []
  | a :: as =>
    match f a with
    | .error e => .error e
    | .ok b =>
      match mapExcept f as with
      | .error e => .error e
      | .ok bs => .ok (b :: bs)

/-- The parallel decode path: capture all track spans in order, then decode
each span independently (the rayon fork-join over per-track `EventIter`s),
collecting results back in the original order. -/
def collectTracksPar (strict : Bool) (c : EventCodec E) (s : TrackIter) :
    Except MidiError (List (List E)) :=
  match collectChunks strict s with
  | .error e => .error e
  | .ok ts => mapExcept (fun t => EventIter.collect strict c (EventIter.new t)) ts

/-- How many bytes a MIDI body must have in order to enable multithreading. -/
def PARALLEL_ENABLE_THRESHOLD : Nat := 4 * 1024

/-- `TrackIter::generic_collect`: take the parallel path when the undecoded
byte volume reaches the threshold, the sequential path otherwise. -/
def generic_collect (strict : Bool) (c : EventCodec E) (s : TrackIter) :
    Except MidiError (List (List E)) :=
  if PARALLEL_ENABLE_THRESHOLD ≤ s.raw.length then collectTracksPar strict c s
  else collectTracksSeq strict c s

/-- Modelled from the spec: the optional outer RIFF unwrap step lives outside
`src/` and is specified as pass-through when the wrapper is absent; the inputs
of interest carry no wrapper, so it is modelled as always absent. -/
def riffUnwrap (_raw : List Nat) : Option (List Nat) := none

/-- Free function `parse`: unwrap, then read chunks until the first header
chunk, failing if none exists or if a track chunk comes first; the remaining
stream becomes the `TrackIter` carrying the declared track count. -/
def parse (strict : Bool) (raw : List Nat) : Except MidiError (Header × TrackIter) :=
  let raw1 := (riffUnwrap raw).getD raw
  match (ChunkIter.next strict raw1).1 with
  | some (.error _) => .error (.invalid "invalid midi header")
  | some (.ok (.header h tc)) =>
    .ok (h, { raw := (ChunkIter.next strict raw1).2, track_count_hint := tc })
  | some (.ok (.track _)) => .error (.invalid "expected header, found track")
  | none => .error (.invalid "no header chunk")

/-- `validate_smf`: under strict policy the declared track count must equal
the decoded track count, and a single-track file must have exactly one track;
lenient policy skips validation. -/
def validate_smf (strict : Bool) (header : Header)
    (track_count_hint track_count : Nat) : Except MidiError Unit :=
  if strict then
    if track_count_hint ≠ track_count then
      .error (.malformed "file has a different amount of tracks than declared")
    else if header.format = Format.singleTrack ∧ track_count ≠ 1 then
      .error (.malformed "singletrack format file has multiple tracks")
    else .ok ()
  else .ok ()

/-- Alias for the free `parse` function (to sidestep name shadowing inside
the `Smf` namespace). -/
def parseChunks : Bool → List Nat → Except MidiError (Header × TrackIter) := parse

/-- An in-memory MIDI file: header plus eagerly decoded tracks. -/
structure Smf (E : Type) where
  header : Header
  tracks : List (List E)

/-- `Smf::parse`: parse the header, capture the declared track count, collect
all tracks through `generic_collect`, and validate. -/
def Smf.parse (strict : Bool) (c : EventCodec E) (raw : List Nat) :
    Except MidiError (Smf E) :=
  match parseChunks strict raw with
  | .error e => .error e
  | .ok (header, tracks0) =>
    match generic_collect strict c tracks0 with
    | .error e => .error e
    | .ok tracks =>
      match validate_smf strict header tracks0.track_count_hint tracks.length with
      | .error e => .error e
      | .ok _ => .ok { header := header, tracks := tracks }

/-- Serialize a track's events, threading the running status. -/
def writeEvents (c : EventCodec E) (rs : Option Nat) : List E → List Nat
  | [] => []
  | ev :: evs =>
    let p := c.write ev rs
    p.1 ++ writeEvents c p.2 evs

/-- `Chunk::write_header`: the header chunk (`"MThd"`, length 6, encoded
header); fails if the track count does not fit in a u16. -/
def Chunk.write_header (header : Header) (track_count : Nat) :
    Except EncodeError (List Nat) :=
  if track_count < 2 ^ 16 then
    .ok (mthdId ++ u32be 6 ++ Header.encode header track_count)
  else .error (.invalidInput "track count exceeds 16 bit range")

/-- `Chunk::write_track`: serialize the events with the running status reset
to none, then frame them as `"MTrk"` plus a big-endian u32 length; fails if
the body length does not fit in a u32. -/
def Chunk.write_track (c : EventCodec E) (track : List E) :
    Except EncodeError (List Nat) :=
  let body := writeEvents c none track
  if body.length < 2 ^ 32 then .ok (mtrkId ++ u32be body.length ++ body)
  else .error (.invalidInput "midi chunk size exceeds 32 bit range")

/-- Free function `write`: the header chunk first (with the actual track
count), then each track chunk, in order. -/
def write (c : EventCodec E) (header : Header) (tracks : List (List E)) :
    Except EncodeError (List Nat) :=
  match Chunk.write_header header tracks.length with
  | .error e => .error e
  | .ok hchunk =>
    match mapExcept (Chunk.write_track c) tracks with
    | .error e => .error e
    | .ok tchunks => .ok (hchunk ++ tchunks.flatten)

theorem collectChunks_eq (strict : Bool) (s : TrackIter) :
    collectChunks strict s =
      (match (TrackIter.next strict s).1 with
       | none => .ok []
       | some (.error e) => .error e
       | some (.ok t) =>
         match collectChunks strict (TrackIter.next strict s).2 with
         | .error e => .error e
         | .ok ts => .ok (t :: ts)) := by
  rw [collectChunks.eq_def]
  split
  · rename_i heq
    simp only [heq]
  · rename_i e heq
    simp only [heq]
  · rename_i t heq
    simp only [heq]

theorem collectTracksSeq_eq (strict : Bool) (c : EventCodec E) (s : TrackIter) :
    collectTracksSeq strict c s =
      (match (TrackIter.next strict s).1 with
       | none => .ok []
       | some (.error e) => .error e
       | some (.ok t) =>
         match EventIter.collect strict c (EventIter.new t) with
         | .error e => .error e
         | .ok evs =>
           match collectTracksSeq strict c (TrackIter.next strict s).2 with
           | .error e => .error e
           | .ok rest => .ok (evs :: rest)) := by
  rw [collectTracksSeq.eq_def]
  split
  · rename_i heq
    simp only [heq]
  · rename_i e heq
    simp only [heq]
  · rename_i t heq
    simp only [heq]

theorem chunkIter_next_nil (strict : Bool) : ChunkIter.next strict [] = (none, []) := by
  unfold ChunkIter.next
  rw [Chunk.read_nil]

theorem trackIter_next_nil (strict : Bool) (hint : Nat) :
    TrackIter.next strict { raw := [], track_count_hint := hint } =
      (none, { raw := [], track_count_hint := hint }) := by
  rw [TrackIter.next_eq]
  simp only [chunkIter_next_nil]

/-- Key refinement fact shared by several results: up to which error value is
reported, the parallel path (capture all spans, then decode each) and the
sequential path (decode as spans are pulled) agree on every input. -/
theorem par_toOption_eq_seq (strict : Bool) (c : EventCodec E) (s : TrackIter) :
    (collectTracksPar strict c s).toOption = (collectTracksSeq strict c s).toOption := by
  have aux : ∀ (n : Nat) (s : TrackIter), s.raw.length ≤ n →
      (collectTracksPar strict c s).toOption = (collectTracksSeq strict c s).toOption := by
    intro n
    induction n with
    | zero =>
      intro s hle
      have hraw : s.raw = [] := List.eq_nil_of_length_eq_zero (Nat.le_zero.mp hle)
      obtain ⟨raw, hint⟩ := s
      simp only at hraw
      subst hraw
      unfold collectTracksPar
      rw [collectChunks_eq, collectTracksSeq_eq, trackIter_next_nil]
      rfl
    | succ n ih =>
      intro s hle
      unfold collectTracksPar
      rw [collectChunks_eq, collectTracksSeq_eq]
      cases h1 : (TrackIter.next strict s).1 with
      | none => rfl
      | some r =>
        have hlt := trackIter_next_fst_some_lt h1
        have hle' : (TrackIter.next strict s).2.raw.length ≤ n := by omega
        have ihs := ih (TrackIter.next strict s).2 hle'
        cases r with
        | error e => rfl
        | ok t =>
          cases hc : collectChunks strict (TrackIter.next strict s).2 with
          | error e =>
            have hpar : collectTracksPar strict c (TrackIter.next strict s).2 = .error e := by
              unfold collectTracksPar
              rw [hc]
            rw [hpar] at ihs
            cases hseq : collectTracksSeq strict c (TrackIter.next strict s).2 with
            | error e4 =>
              cases hcol : EventIter.collect strict c (EventIter.new t) with
              | error e2 => simp [hcol, Except.toOption]
              | ok evs => simp [hcol, hseq, Except.toOption]
            | ok rest =>
              rw [hseq] at ihs
              simp [Except.toOption] at ihs
          | ok ts =>
            have hpar : collectTracksPar strict c (TrackIter.next strict s).2 =
                mapExcept (fun t => EventIter.collect strict c (EventIter.new t)) ts := by
              unfold collectTracksPar
              rw [hc]
            rw [hpar] at ihs
            cases hcol : EventIter.collect strict c (EventIter.new t) with
            | error e2 => simp [mapExcept, hcol, Except.toOption]
            | ok evs =>
              cases hm : mapExcept (fun t => EventIter.collect strict c (EventIter.new t)) ts with
              | error e3 =>
                rw [hm] at ihs
                cases hseq : collectTracksSeq strict c (TrackIter.next strict s).2 with
                | error e4 => simp [mapExcept, hcol, hm, hseq, Except.toOption]
                | ok rest =>
                  rw [hseq] at ihs
                  simp [Except.toOption] at ihs
              | ok bs =>
                rw [hm] at ihs
                cases hseq : collectTracksSeq strict c (TrackIter.next strict s).2 with
                | error e4 =>
                  rw [hseq] at ihs
                  simp [Except.toOption] at ihs
                | ok rest =>
                  rw [hseq] at ihs
                  simp only [Except.toOption, Option.some.injEq] at ihs
                  subst ihs
                  simp [mapExcept, hcol, hm, hseq, Except.toOption]
  exact aux s.raw.length s (Nat.le_refl _)

theorem Except.toOption_ok {ε α : Type} {x : Except ε α} {v : α}
    (h : x.toOption = some v) : x = .ok v := by
  cases x with
  | ok w => simp [Except.toOption] at h; rw [h]
  | error e => simp [Except.toOption] at h

/-- Whenever the sequential path succeeds, `generic_collect` succeeds with the
same value, regardless of which side of the threshold the input falls on. -/
theorem generic_collect_of_seq_ok {strict : Bool} {c : EventCodec E} {s : TrackIter}
    {l : List (List E)} (h : collectTracksSeq strict c s = .ok l) :
    generic_collect strict c s = .ok l := by
  unfold generic_collect
  split
  · have heq := par_toOption_eq_seq strict c s
    rw [h] at heq
    exact Except.toOption_ok heq
  · exact h

/-- Lenient eager collection never fails: it returns exactly the decode trace
prefix (the events decoded before the first failure point). -/
theorem EventIter.collect_lenient (c : EventCodec E) (it : EventIter) :
    EventIter.collect false c it = .ok (decodeSteps c it.raw it.running_status).1 := by
  have aux : ∀ (n : Nat) (it : EventIter), it.raw.length ≤ n →
      EventIter.collect false c it = .ok (decodeSteps c it.raw it.running_status).1 := by
    intro n
    induction n with
    | zero =>
      intro it hle
      have hraw : it.raw = [] := List.eq_nil_of_length_eq_zero (Nat.le_zero.mp hle)
      rw [EventIter.collect_eq, decodeSteps_eq]
      simp [hraw]
    | succ n ih =>
      intro it hle
      rw [EventIter.collect_eq, decodeSteps_eq]
      by_cases hraw : it.raw = []
      · simp [hraw]
      · rw [if_neg hraw, if_neg hraw]
        cases hr : c.read it.raw it.running_status with
        | none => simp
        | some t =>
          obtain ⟨ev, raw', rs'⟩ := t
          have hlt := c.read_consumes it.raw it.running_status _ hr
          simp only at hlt
          have hrec := ih { raw := raw', running_status := rs' }
            (by show raw'.length ≤ n; omega)
          simp only at hrec
          simp [hrec]
  exact aux it.raw.length it (Nat.le_refl _)

/-- Strict eager collection succeeds exactly when the decode trace consumes
the whole span; at a failure point it reports the malformed-event error. -/
theorem EventIter.collect_strict (c : EventCodec E) (it : EventIter) :
    EventIter.collect true c it =
      (if (decodeSteps c it.raw it.running_status).2.1 = [] then
        .ok (decodeSteps c it.raw it.running_status).1
      else .error (.malformed "malformed event")) := by
  have aux : ∀ (n : Nat) (it : EventIter), it.raw.length ≤ n →
      EventIter.collect true c it =
        (if (decodeSteps c it.raw it.running_status).2.1 = [] then
          .ok (decodeSteps c it.raw it.running_status).1
        else .error (.malformed "malformed event")) := by
    intro n
    induction n with
    | zero =>
      intro it hle
      have hraw : it.raw = [] := List.eq_nil_of_length_eq_zero (Nat.le_zero.mp hle)
      rw [EventIter.collect_eq, decodeSteps_eq]
      simp [hraw]
    | succ n ih =>
      intro it hle
      rw [EventIter.collect_eq, decodeSteps_eq]
      by_cases hraw : it.raw = []
      · simp [hraw]
      · rw [if_neg hraw, if_neg hraw]
        cases hr : c.read it.raw it.running_status with
        | none => simp [hraw]
        | some t =>
          obtain ⟨ev, raw', rs'⟩ := t
          have hlt := c.read_consumes it.raw it.running_status _ hr
          simp only at hlt
          have hrec := ih { raw := raw', running_status := rs' }
            (by show raw'.length ≤ n; omega)
          simp only at hrec
          by_cases hend : (decodeSteps c raw' rs').2.1 = []
          · simp [hrec, hend]
          · simp [hrec, hend]
  exact aux it.raw.length it (Nat.le_refl _)

/-- The prefix round-trip property of an event codec (the spec's caveat that
running-status choices be deterministic): reading back the bytes written for
an event, followed by any tail, yields exactly that event, consumes exactly
its bytes, and leaves the running status the writer produced. -/
def EventCodec.RoundTrip (c : EventCodec E) : Prop :=
  ∀ ev rs tail, c.read ((c.write ev rs).1 ++ tail) rs = some (ev, tail, (c.write ev rs).2)

/-- Collecting a serialized track recovers exactly its events, under either
policy, for a round-tripping codec. -/
theorem EventIter.collect_writeEvents {c : EventCodec E} (hrt : c.RoundTrip)
    (strict : Bool) (evs : List E) (rs : Option Nat) :
    EventIter.collect strict c { raw := writeEvents c rs evs, running_status := rs } =
      .ok evs := by
  induction evs generalizing rs with
  | nil => rw [EventIter.collect_eq]; simp [writeEvents]
  | cons ev evs ih =>
    have hread := hrt ev rs (writeEvents c (c.write ev rs).2 evs)
    have hcons := c.read_consumes _ _ _ hread
    simp only at hcons
    rw [EventIter.collect_eq]
    have hne : writeEvents c rs (ev :: evs) ≠ [] := by
      intro hz
      rw [show writeEvents c rs (ev :: evs)
            = (c.write ev rs).1 ++ writeEvents c (c.write ev rs).2 evs from rfl] at hz
      rw [hz] at hcons
      simp at hcons
    rw [if_neg hne]
    simp only [show writeEvents c rs (ev :: evs)
      = (c.write ev rs).1 ++ writeEvents c (c.write ev rs).2 evs from rfl]
    simp only [hread]
    rw [ih ((c.write ev rs).2)]

/-- A building block for chunk streams: a track chunk or an unknown chunk. -/
inductive RChunk where
  | mtrk (payload : List Nat)
  | unknown (id : List Nat) (payload : List Nat)
  deriving DecidableEq, Repr

/-- The wire bytes of a stream chunk. -/
def RChunk.bytes : RChunk → List Nat
  | .mtrk p => chunkBytes mtrkId p
  | .unknown id p => chunkBytes id p

/-- Well-formedness of a stream chunk: payload length fits in a u32 and an
unknown chunk's id is four bytes long and is neither `"MThd"` nor `"MTrk"`. -/
def RChunk.wf : RChunk → Prop
  | .mtrk p => p.length < 2 ^ 32
  | .unknown id p => id.length = 4 ∧ id ≠ mthdId ∧ id ≠ mtrkId ∧ p.length < 2 ^ 32

/-- The concatenated wire bytes of a chunk stream. -/
def chunkStream (cs : List RChunk) : List Nat :=
  (cs.map RChunk.bytes).flatten

/-- The track payloads of a chunk stream, in left-to-right order. -/
def mtrkPayloads (cs : List RChunk) : List (List Nat) :=
  cs.filterMap fun ch =>
    match ch with
    | .mtrk p => some p
    | .unknown _ _ => none

theorem chunkStream_cons (ch : RChunk) (cs : List RChunk) :
    chunkStream (ch :: cs) = ch.bytes ++ chunkStream cs := by
  simp [chunkStream]

theorem chunkIter_next_mtrk {strict : Bool} {p rest : List Nat}
    (hp : p.length < 2 ^ 32) :
    ChunkIter.next strict (chunkBytes mtrkId p ++ rest) =
      (some (.ok (.track p)), rest) := by
  unfold ChunkIter.next
  rw [Chunk.read_mtrk hp]

theorem trackIter_next_mtrk {strict : Bool} {hint : Nat} {p rest : List Nat}
    (hp : p.length < 2 ^ 32) :
    TrackIter.next strict { raw := chunkBytes mtrkId p ++ rest, track_count_hint := hint } =
      (some (.ok p), { raw := rest, track_count_hint := hint - 1 }) := by
  rw [TrackIter.next_eq]
  simp only [chunkIter_next_mtrk hp]

theorem chunkIter_next_unknown {strict : Bool} {id p rest : List Nat}
    (hid : id.length = 4) (h1 : id ≠ mthdId) (h2 : id ≠ mtrkId)
    (hlen : p.length < 2 ^ 32) :
    ChunkIter.next strict (chunkBytes id p ++ rest) =
      (match Chunk.read strict rest with
       | .ok (some (c, r2)) => (some (.ok c), r2)
       | .ok none => (none, chunkBytes id p ++ rest)
       | .error e => (some (.error e), [])) := by
  unfold ChunkIter.next
  rw [Chunk.read_unknown hid h1 h2 hlen]

theorem trackIter_next_unknown (strict : Bool) (hint : Nat) {id p rest : List Nat}
    (hid : id.length = 4) (h1 : id ≠ mthdId) (h2 : id ≠ mtrkId)
    (hlen : p.length < 2 ^ 32) :
    (TrackIter.next strict { raw := chunkBytes id p ++ rest, track_count_hint := hint }).1 =
      (TrackIter.next strict { raw := rest, track_count_hint := hint }).1 ∧
    (∀ r, (TrackIter.next strict { raw := rest, track_count_hint := hint }).1 = some r →
      (TrackIter.next strict { raw := chunkBytes id p ++ rest, track_count_hint := hint }).2 =
        (TrackIter.next strict { raw := rest, track_count_hint := hint }).2) := by
  rw [TrackIter.next_eq strict { raw := chunkBytes id p ++ rest, track_count_hint := hint }]
  rw [TrackIter.next_eq strict { raw := rest, track_count_hint := hint }]
  rw [chunkIter_next_unknown hid h1 h2 hlen]
  show _ ∧ _
  cases hr : Chunk.read strict rest with
  | error e =>
    have hcn : ChunkIter.next strict rest = (some (.error e), []) := by
      unfold ChunkIter.next
      rw [hr]
    simp [hcn, hr]
  | ok o =>
    cases o with
    | none =>
      have hcn : ChunkIter.next strict rest = (none, rest) := by
        unfold ChunkIter.next
        rw [hr]
      simp [hcn, hr]
    | some t =>
      obtain ⟨c, r2⟩ := t
      have hcn : ChunkIter.next strict rest = (some (.ok c), r2) := by
        unfold ChunkIter.next
        rw [hr]
      simp [hcn, hr]

theorem collectChunks_unknown {strict : Bool} {hint : Nat} {id p rest : List Nat}
    (hid : id.length = 4) (h1 : id ≠ mthdId) (h2 : id ≠ mtrkId)
    (hlen : p.length < 2 ^ 32) :
    collectChunks strict { raw := chunkBytes id p ++ rest, track_count_hint := hint } =
      collectChunks strict { raw := rest, track_count_hint := hint } := by
  obtain ⟨hfst, hsnd⟩ := trackIter_next_unknown strict hint hid h1 h2 hlen
  rw [collectChunks_eq strict { raw := chunkBytes id p ++ rest, track_count_hint := hint },
    collectChunks_eq strict { raw := rest, track_count_hint := hint }, hfst]
  cases hn : (TrackIter.next strict { raw := rest, track_count_hint := hint }).1 with
  | none => rfl
  | some r =>
    rw [hsnd r hn]

theorem collectTracksSeq_unknown {strict : Bool} {c : EventCodec E} {hint : Nat}
    {id p rest : List Nat}
    (hid : id.length = 4) (h1 : id ≠ mthdId) (h2 : id ≠ mtrkId)
    (hlen : p.length < 2 ^ 32) :
    collectTracksSeq strict c { raw := chunkBytes id p ++ rest, track_count_hint := hint } =
      collectTracksSeq strict c { raw := rest, track_count_hint := hint } := by
  obtain ⟨hfst, hsnd⟩ := trackIter_next_unknown strict hint hid h1 h2 hlen
  rw [collectTracksSeq_eq strict c { raw := chunkBytes id p ++ rest, track_count_hint := hint },
    collectTracksSeq_eq strict c { raw := rest, track_count_hint := hint }, hfst]
  cases hn : (TrackIter.next strict { raw := rest, track_count_hint := hint }).1 with
  | none => rfl
  | some r =>
    rw [hsnd r hn]

theorem collectChunks_stream (strict : Bool) (cs : List RChunk)
    (hwf : ∀ ch ∈ cs, ch.wf) :
    ∀ hint, collectChunks strict { raw := chunkStream cs, track_count_hint := hint } =
      .ok (mtrkPayloads cs) := by
  induction cs with
  | nil =>
    intro hint
    rw [show chunkStream [] = [] from rfl, collectChunks_eq, trackIter_next_nil]
    rfl
  | cons ch cs ih =>
    intro hint
    have hwfh := hwf ch (List.mem_cons_self _ _)
    have hwft : ∀ x ∈ cs, x.wf := fun x hx => hwf x (List.mem_cons_of_mem _ hx)
    rw [chunkStream_cons]
    cases ch with
    | mtrk p =>
      simp only [RChunk.wf] at hwfh
      rw [show (RChunk.mtrk p).bytes = chunkBytes mtrkId p from rfl]
      rw [collectChunks_eq]
      rw [trackIter_next_mtrk hwfh]
      simp only
      rw [ih hwft (hint - 1)]
      simp [mtrkPayloads]
    | unknown id p =>
      obtain ⟨hid, h1, h2, hlen⟩ := hwfh
      rw [show (RChunk.unknown id p).bytes = chunkBytes id p from rfl]
      rw [collectChunks_unknown hid h1 h2 hlen]
      rw [ih hwft hint]
      simp [mtrkPayloads]

theorem collectTracksSeq_stream (strict : Bool) (c : EventCodec E) (cs : List RChunk)
    (hwf : ∀ ch ∈ cs, ch.wf) :
    ∀ hint, collectTracksSeq strict c { raw := chunkStream cs, track_count_hint := hint } =
      mapExcept (fun t => EventIter.collect strict c (EventIter.new t)) (mtrkPayloads cs) := by
  induction cs with
  | nil =>
    intro hint
    rw [show chunkStream [] = [] from rfl, collectTracksSeq_eq, trackIter_next_nil]
    rfl
  | cons ch cs ih =>
    intro hint
    have hwfh := hwf ch (List.mem_cons_self _ _)
    have hwft : ∀ x ∈ cs, x.wf := fun x hx => hwf x (List.mem_cons_of_mem _ hx)
    rw [chunkStream_cons]
    cases ch with
    | mtrk p =>
      simp only [RChunk.wf] at hwfh
      rw [show (RChunk.mtrk p).bytes = chunkBytes mtrkId p from rfl]
      rw [collectTracksSeq_eq]
      rw [trackIter_next_mtrk hwfh]
      simp only
      rw [ih hwft (hint - 1)]
      rw [show mtrkPayloads (RChunk.mtrk p :: cs) = p :: mtrkPayloads cs by simp [mtrkPayloads]]
      cases hcol : EventIter.collect strict c (EventIter.new p) with
      | error e => simp [mapExcept, hcol]
      | ok evs =>
        cases hm : mapExcept (fun t => EventIter.collect strict c (EventIter.new t))
            (mtrkPayloads cs) with
        | error e => simp [mapExcept, hcol, hm]
        | ok rest => simp [mapExcept, hcol, hm]
    | unknown id p =>
      obtain ⟨hid, h1, h2, hlen⟩ := hwfh
      rw [show (RChunk.unknown id p).bytes = chunkBytes id p from rfl]
      rw [collectTracksSeq_unknown hid h1 h2 hlen]
      rw [ih hwft hint]
      rw [show mtrkPayloads (RChunk.unknown id p :: cs) = mtrkPayloads cs by simp [mtrkPayloads]]

theorem format_encode_two (f : Format) : f.encode.length = 2 := by
  cases f <;> rfl

theorem timing_encode_two (t : Timing) : t.encode.length = 2 := by
  cases t <;> rfl

theorem header_encode_six (h : Header) (tc : Nat) : (Header.encode h tc).length = 6 := by
  simp [Header.encode, format_encode_two, timing_encode_two, u16be]

theorem parse_nil (strict : Bool) : parse strict [] = .error (.invalid "no header chunk") := by
  unfold parse riffUnwrap
  simp [chunkIter_next_nil]

theorem parse_unknown {strict : Bool} {id p rest : List Nat}
    (hid : id.length = 4) (h1 : id ≠ mthdId) (h2 : id ≠ mtrkId)
    (hlen : p.length < 2 ^ 32) :
    parse strict (chunkBytes id p ++ rest) = parse strict rest := by
  unfold parse riffUnwrap
  simp only [Option.getD_none]
  rw [chunkIter_next_unknown hid h1 h2 hlen]
  cases hr : Chunk.read strict rest with
  | error e =>
    have hcn : ChunkIter.next strict rest = (some (.error e), []) := by
      unfold ChunkIter.next
      rw [hr]
    simp [hcn]
  | ok o =>
    cases o with
    | none =>
      have hcn : ChunkIter.next strict rest = (none, rest) := by
        unfold ChunkIter.next
        rw [hr]
      simp [hcn]
    | some t =>
      obtain ⟨c, r2⟩ := t
      have hcn : ChunkIter.next strict rest = (some (.ok c), r2) := by
        unfold ChunkIter.next
        rw [hr]
      cases c with
      | header hd tc => simp [hcn]
      | track d => simp [hcn]

theorem parse_mthd {strict : Bool} {h : Header} {tc : Nat} {rest : List Nat}
    (hwf : h.timing.wf) (htc : tc < 2 ^ 16) :
    parse strict (chunkBytes mthdId (Header.encode h tc) ++ rest) =
      .ok (h, { raw := rest, track_count_hint := tc }) := by
  have hcr : Chunk.read strict (chunkBytes mthdId (Header.encode h tc) ++ rest) =
      .ok (some (.header h tc, rest)) := by
    rw [Chunk.read_mthd (by rw [header_encode_six]; norm_num)]
    rw [header_read_encode hwf htc]
  have hcn : ChunkIter.next strict (chunkBytes mthdId (Header.encode h tc) ++ rest) =
      (some (.ok (.header h tc)), rest) := by
    unfold ChunkIter.next
    rw [hcr]
  unfold parse riffUnwrap
  simp [hcn]

theorem parse_mtrk_first {strict : Bool} {p rest : List Nat} (hp : p.length < 2 ^ 32) :
    parse strict (chunkBytes mtrkId p ++ rest) =
      .error (.invalid "expected header, found track") := by
  have hcn : ChunkIter.next strict (chunkBytes mtrkId p ++ rest) =
      (some (.ok (.track p)), rest) := chunkIter_next_mtrk hp
  unfold parse riffUnwrap
  simp [hcn]

theorem parse_short {strict : Bool} {raw : List Nat} (hne : raw ≠ [])
    (hlen : raw.length < 8) :
    parse strict raw = .error (.invalid "invalid midi header") := by
  have hframe : ∃ e, readFrame strict raw = .error e := by
    unfold readFrame
    rw [if_neg hne]
    by_cases h4 : 4 ≤ raw.length
    · have hs : split_checked 4 raw = some (raw.take 4, raw.drop 4) := by
        unfold split_checked
        rw [if_pos h4]
      have hu : readU32 (raw.drop 4) = none := by
        unfold readU32 split_checked
        rw [if_neg (by simp; omega)]
        rfl
      simp only [hs, hu]
      exact ⟨_, rfl⟩
    · have hs : split_checked 4 raw = none := by
        unfold split_checked
        rw [if_neg h4]
      simp only [hs]
      exact ⟨_, rfl⟩
  obtain ⟨e, he⟩ := hframe
  have hcr : Chunk.read strict raw = .error e := by
    rw [Chunk.read_eq]
    simp only [he]
  have hcn : ChunkIter.next strict raw = (some (.error e), []) := by
    unfold ChunkIter.next
    rw [hcr]
  unfold parse riffUnwrap
  simp [hcn]

/-- A chunk stream with no header and no track chunk yields no header. -/
theorem parse_no_header (strict : Bool) (cs : List RChunk)
    (hwf : ∀ ch ∈ cs, ch.wf)
    (hunk : ∀ ch ∈ cs, ∀ p, ch ≠ RChunk.mtrk p) :
    parse strict (chunkStream cs) = .error (.invalid "no header chunk") := by
  induction cs with
  | nil => rw [show chunkStream [] = [] from rfl]; exact parse_nil strict
  | cons ch cs ih =>
    have hwfh := hwf ch (List.mem_cons_self _ _)
    cases ch with
    | mtrk p => exact absurd rfl (hunk (RChunk.mtrk p) (List.mem_cons_self _ _) p)
    | unknown id p =>
      obtain ⟨hid, h1, h2, hlen⟩ := hwfh
      rw [chunkStream_cons]
      rw [show (RChunk.unknown id p).bytes = chunkBytes id p from rfl]
      rw [parse_unknown hid h1 h2 hlen]
      exact ih (fun x hx => hwf x (List.mem_cons_of_mem _ hx))
        (fun x hx => hunk x (List.mem_cons_of_mem _ hx))

instance (ch : RChunk) : Decidable ch.wf := by
  cases ch <;> simp only [RChunk.wf] <;> infer_instance

/-- A tiny concrete event codec over single bytes (one byte per event, running
status untouched), used to instantiate theorems about the abstract codec. -/
def byteCodec : EventCodec (Fin 256) where
  read raw rs :=
    match raw with
    | [] => none
    | b :: rest => if h : b < 256 then some (⟨b, h⟩, rest, rs) else none
  write ev rs := ([ev.val], rs)
  read_consumes := by
    intro raw rs out h
    cases raw with
    | nil => cases h
    | cons b rest =>
      simp only at h
      split at h
      · cases h
        simp
      · cases h

theorem byteCodec_roundtrip : byteCodec.RoundTrip := by
  intro ev rs tail
  show (match ev.val :: tail with
    | [] => none
    | b :: rest => if h : b < 256 then some ((⟨b, h⟩ : Fin 256), rest, rs) else none) =
    some (ev, tail, rs)
  simp [ev.isLt]

/-- A concrete codec that fails on any byte with the high bit set, used to
witness failure-handling theorems. -/
def haltCodec : EventCodec Nat where
  read raw rs :=
    match raw with
    | [] => none
    | b :: rest => if b < 128 then some (b, rest, rs) else none
  write ev rs := ([ev % 128], rs)
  read_consumes := by
    intro raw rs out h
    cases raw with
    | nil => cases h
    | cons b rest =>
      simp only at h
      split at h
      · cases h
        simp
      · cases h

theorem mapExcept_map_ok {α β ε : Type} {f : β → Except ε α} {g : α → β}
    {l : List α} (hv : ∀ x ∈ l, f (g x) = .ok x) :
    mapExcept f (l.map g) = .ok l := by
  induction l with
  | nil => rfl
  | cons x xs ih =>
    have hx := hv x (List.mem_cons_self _ _)
    have hxs := ih fun y hy => hv y (List.mem_cons_of_mem _ hy)
    simp [mapExcept, hx, hxs]

theorem Chunk.write_track_ok {c : EventCodec E} {t : List E} {out : List Nat}
    (h : Chunk.write_track c t = .ok out) :
    (writeEvents c none t).length < 2 ^ 32 ∧
    out = chunkBytes mtrkId (writeEvents c none t) := by
  simp only [Chunk.write_track] at h
  split at h
  · cases h
    refine ⟨by assumption, ?_⟩
    rfl
  · cases h

theorem mapExcept_write_track_ok {c : EventCodec E} {tracks : List (List E)}
    {tchunks : List (List Nat)}
    (h : mapExcept (Chunk.write_track c) tracks = .ok tchunks) :
    tchunks = tracks.map (fun t => chunkBytes mtrkId (writeEvents c none t)) ∧
    ∀ t ∈ tracks, (writeEvents c none t).length < 2 ^ 32 := by
  induction tracks generalizing tchunks with
  | nil =>
    cases h
    exact ⟨rfl, by simp⟩
  | cons t ts ih =>
    unfold mapExcept at h
    cases hw : Chunk.write_track c t with
    | error e => rw [hw] at h; cases h
    | ok out =>
      rw [hw] at h
      cases hm : mapExcept (Chunk.write_track c) ts with
      | error e => rw [hm] at h; cases h
      | ok outs =>
        rw [hm] at h
        cases h
        obtain ⟨hfit, hout⟩ := Chunk.write_track_ok hw
        obtain ⟨houts, hfits⟩ := ih hm
        constructor
        · rw [hout, houts]
          rfl
        · intro x hx
          cases List.mem_cons.mp hx with
          | inl hxe => rw [hxe]; exact hfit
          | inr hxm => exact hfits x hxm

theorem mapExcept_write_track_of_fit {c : EventCodec E} {tracks : List (List E)}
    (hfit : ∀ t ∈ tracks, (writeEvents c none t).length < 2 ^ 32) :
    mapExcept (Chunk.write_track c) tracks =
      .ok (tracks.map fun t => chunkBytes mtrkId (writeEvents c none t)) := by
  induction tracks with
  | nil => rfl
  | cons t ts ih =>
    have h1 := hfit t (List.mem_cons_self _ _)
    have h2 := ih fun x hx => hfit x (List.mem_cons_of_mem _ hx)
    have hw : Chunk.write_track c t = .ok (chunkBytes mtrkId (writeEvents c none t)) := by
      unfold Chunk.write_track
      rw [if_pos h1]
      rfl
    simp [mapExcept, hw, h2]

theorem write_ok_decompose {c : EventCodec E} {h : Header} {tracks : List (List E)}
    {bytes : List Nat} (hw : write c h tracks = .ok bytes) :
    tracks.length < 2 ^ 16 ∧
    (∀ t ∈ tracks, (writeEvents c none t).length < 2 ^ 32) ∧
    bytes = chunkBytes mthdId (Header.encode h tracks.length) ++
      (tracks.map fun t => chunkBytes mtrkId (writeEvents c none t)).flatten := by
  unfold write at hw
  cases hh : Chunk.write_header h tracks.length with
  | error e =>
    rw [hh] at hw
    cases hw
  | ok hchunk =>
    simp only [hh] at hw
    cases hm : mapExcept (Chunk.write_track c) tracks with
    | error e =>
      rw [hm] at hw
      cases hw
    | ok tchunks =>
      simp only [hm] at hw
      cases hw
      obtain ⟨hts, hfit⟩ := mapExcept_write_track_ok hm
      have hcount : tracks.length < 2 ^ 16 := by
        by_contra hge
        unfold Chunk.write_header at hh
        rw [if_neg hge] at hh
        cases hh
      have hhc : hchunk = mthdId ++ u32be 6 ++ Header.encode h tracks.length := by
        unfold Chunk.write_header at hh
        rw [if_pos hcount] at hh
        cases hh
        rfl
      refine ⟨hcount, hfit, ?_⟩
      rw [hts, hhc]
      rw [show chunkBytes mthdId (Header.encode h tracks.length) =
        mthdId ++ u32be 6 ++ Header.encode h tracks.length by
          unfold chunkBytes
          rw [header_encode_six]]

/-- C7: when a chunk's declared u32 length exceeds the bytes remaining in the
buffer, lenient reading takes the whole remainder as the payload and succeeds,
while strict reading fails with a malformed "reached eof before chunk ended"
error. (Stated for a track chunk, whose payload is surfaced directly.) -/
theorem truncated_chunk_policy {len : Nat} {rest : List Nat}
    (hshort : rest.length < len) (hlen : len < 2 ^ 32) :
    Chunk.read false (mtrkId ++ u32be len ++ rest) = .ok (some (.track rest, [])) ∧
    Chunk.read true (mtrkId ++ u32be len ++ rest) =
      .error (.malformed "reached eof before chunk ended") := by
  have hnn : mtrkId ++ u32be len ++ rest ≠ [] := by
    intro hz
    have := congrArg List.length hz
    simp [u32be] at this
  have hsplit : split_checked len rest = none := by
    unfold split_checked
    rw [if_neg (by omega)]
  have hcdF : chunkData false len rest = .ok (rest, []) := by
    unfold chunkData
    simp only [hsplit]
    rfl
  have hcdT : chunkData true len rest = .error (.malformed "reached eof before chunk ended") := by
    unfold chunkData
    simp only [hsplit]
    rfl
  have hnn' : mtrkId ++ (u32be len ++ rest) ≠ [] := by
    rw [← List.append_assoc]
    exact hnn
  have hfF : readFrame false (mtrkId ++ (u32be len ++ rest)) = .ok (some (mtrkId, rest, [])) := by
    unfold readFrame
    rw [if_neg hnn']
    simp only [split_checked_exact mtrkId_length, readU32_u32be hlen, hcdF]
  have hfT : readFrame true (mtrkId ++ (u32be len ++ rest)) =
      .error (.malformed "reached eof before chunk ended") := by
    unfold readFrame
    rw [if_neg hnn']
    simp only [split_checked_exact mtrkId_length, readU32_u32be hlen, hcdT]
  constructor
  · rw [Chunk.read_eq, List.append_assoc]
    simp [hfF, mtrk_ne_mthd]
  · rw [Chunk.read_eq, List.append_assoc]
    simp [hfT]

/-- Witness for C7 at a concrete truncated chunk: declared length 10, only 3
payload bytes remain. -/
theorem truncated_chunk_policy_witness :
    Chunk.read false (mtrkId ++ u32be 10 ++ [7, 8, 9]) =
      .ok (some (.track [7, 8, 9], [])) ∧
    Chunk.read true (mtrkId ++ u32be 10 ++ [7, 8, 9]) =
      .error (.malformed "reached eof before chunk ended") :=
  truncated_chunk_policy (by decide) (by decide)

/-- C8: encoding fails with an InvalidInput error exactly when a wire limit is
exceeded — the header when the track count does not fit a u16, a track when
its chunk body does not fit a u32 — and otherwise the framed chunks are
written successfully. -/
theorem encode_wire_limits (c : EventCodec E) (h : Header) (tracks : List (List E))
    (n : Nat) (t : List E) :
    (Chunk.write_header h n = .error (.invalidInput "track count exceeds 16 bit range")
      ↔ 2 ^ 16 ≤ n) ∧
    (Chunk.write_track c t = .error (.invalidInput "midi chunk size exceeds 32 bit range")
      ↔ 2 ^ 32 ≤ (writeEvents c none t).length) ∧
    ((tracks.length < 2 ^ 16 ∧ ∀ x ∈ tracks, (writeEvents c none x).length < 2 ^ 32) ↔
      write c h tracks = .ok (chunkBytes mthdId (Header.encode h tracks.length) ++
        (tracks.map fun x => chunkBytes mtrkId (writeEvents c none x)).flatten)) := by
  refine ⟨⟨?_, ?_⟩, ⟨?_, ?_⟩, ⟨?_, ?_⟩⟩
  · intro hh
    by_contra hlt
    unfold Chunk.write_header at hh
    rw [if_pos (by omega)] at hh
    cases hh
  · intro hge
    unfold Chunk.write_header
    rw [if_neg (by omega)]
  · intro ht
    by_contra hlt
    simp only [Chunk.write_track] at ht
    rw [if_pos (by omega)] at ht
    cases ht
  · intro hge
    simp only [Chunk.write_track]
    rw [if_neg (by omega)]
  · rintro ⟨hcount, hfit⟩
    unfold write
    have hh : Chunk.write_header h tracks.length =
        .ok (mthdId ++ u32be 6 ++ Header.encode h tracks.length) := by
      unfold Chunk.write_header
      rw [if_pos hcount]
    simp only [hh, mapExcept_write_track_of_fit hfit]
    rw [show chunkBytes mthdId (Header.encode h tracks.length) =
      mthdId ++ u32be 6 ++ Header.encode h tracks.length by
        unfold chunkBytes
        rw [header_encode_six]]
  · intro hw
    obtain ⟨h1, h2, -⟩ := write_ok_decompose hw
    exact ⟨h1, h2⟩

/-- Witness for C8: a 70000-track file fails the u16 limit; a fitting file
writes its framed chunks. -/
theorem encode_wire_limits_witness :
    (2 ^ 16 ≤ 70000 →
      Chunk.write_header { format := Format.multiTrackSync, timing := Timing.metrical 96 } 70000 =
        .error (.invalidInput "track count exceeds 16 bit range")) ∧
    (([[(5 : Fin 256)]].length < 2 ^ 16 ∧
        ∀ x ∈ [[(5 : Fin 256)]], (writeEvents byteCodec none x).length < 2 ^ 32) →
      write byteCodec { format := Format.multiTrackSync, timing := Timing.metrical 96 }
          [[(5 : Fin 256)]] =
        .ok (chunkBytes mthdId
            (Header.encode { format := Format.multiTrackSync, timing := Timing.metrical 96 } 1) ++
          ([[(5 : Fin 256)]].map fun x => chunkBytes mtrkId (writeEvents byteCodec none x)).flatten)) := by
  constructor
  · intro hge
    exact (encode_wire_limits byteCodec
      { format := Format.multiTrackSync, timing := Timing.metrical 96 } [] 70000 []).1.mpr hge
  · intro hfit
    exact (encode_wire_limits byteCodec
      { format := Format.multiTrackSync, timing := Timing.metrical 96 }
      [[(5 : Fin 256)]] 0 []).2.2.mp hfit

/-- C2: for every input, the parallel decode path (taken when the undecoded
byte volume is at or above the 4096-byte threshold) and the sequential decode
path produce identical results — the same per-track event vectors on success,
and an error exactly when the other path errors. -/
theorem parallel_sequential_agree (strict : Bool) (c : EventCodec E) (s : TrackIter) :
    generic_collect strict c s =
      (if PARALLEL_ENABLE_THRESHOLD ≤ s.raw.length then collectTracksPar strict c s
       else collectTracksSeq strict c s) ∧
    (collectTracksPar strict c s).toOption = (collectTracksSeq strict c s).toOption ∧
    (∀ l, collectTracksPar strict c s = .ok l ↔ collectTracksSeq strict c s = .ok l) ∧
    ((∃ e, collectTracksPar strict c s = .error e) ↔
      (∃ e, collectTracksSeq strict c s = .error e)) := by
  have hto := par_toOption_eq_seq strict c s
  refine ⟨rfl, hto, ?_, ?_⟩
  · intro l
    constructor
    · intro hp
      rw [hp] at hto
      simp only [Except.toOption] at hto
      exact Except.toOption_ok hto.symm
    · intro hs
      rw [hs] at hto
      simp only [Except.toOption] at hto
      exact Except.toOption_ok hto
  · constructor
    · rintro ⟨e, hp⟩
      cases hs : collectTracksSeq strict c s with
      | error e2 => exact ⟨e2, rfl⟩
      | ok l =>
        rw [hp, hs] at hto
        simp [Except.toOption] at hto
    · rintro ⟨e, hs⟩
      cases hp : collectTracksPar strict c s with
      | error e2 => exact ⟨e2, rfl⟩
      | ok l =>
        rw [hp, hs] at hto
        simp [Except.toOption] at hto

/-- C9: the running-status register starts at none for every track, on decode
(`EventIter::new`) and on encode (`Chunk::write_track`); the parallel path is
by construction an independent per-track map over the captured spans, and the
sequential path agrees with that independent map on every input — per-track
results depend only on the track's own byte span. -/
theorem running_status_isolation (strict : Bool) (c : EventCodec E) (s : TrackIter)
    (raw : List Nat) (evs : List E) :
    (EventIter.new raw).running_status = none ∧
    Chunk.write_track c evs =
      (if (writeEvents c none evs).length < 2 ^ 32 then
        .ok (mtrkId ++ u32be (writeEvents c none evs).length ++ writeEvents c none evs)
       else .error (.invalidInput "midi chunk size exceeds 32 bit range")) ∧
    collectTracksPar strict c s =
      (match collectChunks strict s with
       | .error e => (Except.error e : Except MidiError (List (List E)))
       | .ok ts => mapExcept (fun t => EventIter.collect strict c (EventIter.new t)) ts) ∧
    (collectTracksSeq strict c s).toOption =
      (match collectChunks strict s with
       | .error e => (Except.error e : Except MidiError (List (List E)))
       | .ok ts => mapExcept (fun t => EventIter.collect strict c (EventIter.new t)) ts).toOption := by
  refine ⟨rfl, rfl, rfl, ?_⟩
  have hto := par_toOption_eq_seq strict c s
  rw [← hto]
  rfl

/-- C3: over any well-formed chunk stream, collection (through either decode
path) returns exactly the decode of the `"MTrk"` payloads in left-to-right
order, so two streams with the same track payloads — differing by inserted or
removed unrecognized chunks — parse identically. -/
theorem track_order_preserved (strict : Bool) (c : EventCodec E)
    (cs cs' : List RChunk) (hint hint' : Nat)
    (hwf : ∀ ch ∈ cs, ch.wf) (hwf' : ∀ ch ∈ cs', ch.wf) :
    generic_collect strict c { raw := chunkStream cs, track_count_hint := hint } =
      mapExcept (fun t => EventIter.collect strict c (EventIter.new t)) (mtrkPayloads cs) ∧
    (mtrkPayloads cs = mtrkPayloads cs' →
      generic_collect strict c { raw := chunkStream cs, track_count_hint := hint } =
        generic_collect strict c { raw := chunkStream cs', track_count_hint := hint' }) := by
  have hgen : ∀ (ds : List RChunk) (k : Nat), (∀ ch ∈ ds, ch.wf) →
      generic_collect strict c { raw := chunkStream ds, track_count_hint := k } =
        mapExcept (fun t => EventIter.collect strict c (EventIter.new t)) (mtrkPayloads ds) := by
    intro ds k hwfd
    unfold generic_collect
    split
    · unfold collectTracksPar
      rw [collectChunks_stream strict ds hwfd k]
    · exact collectTracksSeq_stream strict c ds hwfd k
  refine ⟨hgen cs hint hwf, ?_⟩
  intro hsame
  rw [hgen cs hint hwf, hgen cs' hint' hwf', hsame]

/-- Witness for C3: a stream with two track chunks interleaved with unknown
chunks decodes to its track payloads in order, and removing the unknown
chunks leaves the result unchanged. -/
theorem track_order_preserved_witness :
    generic_collect false byteCodec
        { raw := chunkStream [RChunk.unknown [65, 66, 67, 68] [9], RChunk.mtrk [7],
            RChunk.unknown [88, 89, 90, 91] [], RChunk.mtrk []],
          track_count_hint := 2 } =
      mapExcept (fun t => EventIter.collect false byteCodec (EventIter.new t)) [[7], []] ∧
    generic_collect false byteCodec
        { raw := chunkStream [RChunk.unknown [65, 66, 67, 68] [9], RChunk.mtrk [7],
            RChunk.unknown [88, 89, 90, 91] [], RChunk.mtrk []],
          track_count_hint := 2 } =
      generic_collect false byteCodec
        { raw := chunkStream [RChunk.mtrk [7], RChunk.mtrk []], track_count_hint := 2 } := by
  have h := track_order_preserved false byteCodec
    [RChunk.unknown [65, 66, 67, 68] [9], RChunk.mtrk [7],
      RChunk.unknown [88, 89, 90, 91] [], RChunk.mtrk []]
    [RChunk.mtrk [7], RChunk.mtrk []] 2 2 (by decide) (by decide)
  exact ⟨h.1, h.2 (by decide)⟩

/-- C10: the header chunk need not be the literal first chunk — an
unrecognized chunk before it is skipped (a prefix of unrecognized chunks is
skipped as if absent) — but a `"MTrk"` chunk before any header makes parse
fail with the invalid "expected header, found track" error. -/
theorem header_need_not_be_first (strict : Bool) (id p q rest : List Nat)
    (us : List RChunk)
    (hid : id.length = 4) (h1 : id ≠ mthdId) (h2 : id ≠ mtrkId)
    (hp : p.length < 2 ^ 32) (hq : q.length < 2 ^ 32)
    (hus : ∀ ch ∈ us, ch.wf) (huns : ∀ ch ∈ us, ∀ x, ch ≠ RChunk.mtrk x) :
    parse strict (chunkBytes id p ++ rest) = parse strict rest ∧
    parse strict (chunkStream us ++ rest) = parse strict rest ∧
    parse strict (chunkBytes mtrkId q ++ rest) =
      .error (.invalid "expected header, found track") := by
  refine ⟨parse_unknown hid h1 h2 hp, ?_, parse_mtrk_first hq⟩
  induction us with
  | nil => rw [show chunkStream [] = [] from rfl]; rfl
  | cons ch us ih =>
    have hwfh := hus ch (List.mem_cons_self _ _)
    cases ch with
    | mtrk x => exact absurd rfl (huns (RChunk.mtrk x) (List.mem_cons_self _ _) x)
    | unknown uid up =>
      obtain ⟨huid, hu1, hu2, hul⟩ := hwfh
      rw [chunkStream_cons, show (RChunk.unknown uid up).bytes = chunkBytes uid up from rfl,
        List.append_assoc, parse_unknown huid hu1 hu2 hul]
      exact ih (fun x hx => hus x (List.mem_cons_of_mem _ hx))
        (fun x hx => huns x (List.mem_cons_of_mem _ hx))

/-- Witness for C10 at concrete chunks: an unknown chunk before the header is
skipped; a track chunk first is an invalid-input error. -/
theorem header_need_not_be_first_witness :
    parse true (chunkBytes [65, 66, 67, 68] [1] ++
        chunkBytes mthdId (Header.encode
          { format := Format.multiTrackSync, timing := Timing.metrical 96 } 0)) =
      parse true (chunkBytes mthdId (Header.encode
        { format := Format.multiTrackSync, timing := Timing.metrical 96 } 0)) ∧
    parse true (chunkBytes mtrkId [2] ++
        chunkBytes mthdId (Header.encode
          { format := Format.multiTrackSync, timing := Timing.metrical 96 } 0)) =
      .error (.invalid "expected header, found track") := by
  have h := header_need_not_be_first true [65, 66, 67, 68] [1] [2]
    (chunkBytes mthdId (Header.encode
      { format := Format.multiTrackSync, timing := Timing.metrical 96 } 0))
    [] (by decide) (by decide) (by decide) (by decide) (by decide)
    (by intro ch hch; cases hch) (by intro ch hch; cases hch)
  exact ⟨h.1, h.2.2⟩

theorem smf_parse_eq (strict : Bool) (c : EventCodec E) (raw : List Nat) :
    Smf.parse strict c raw =
      (match parse strict raw with
       | .error e => .error e
       | .ok (header, tracks0) =>
         match generic_collect strict c tracks0 with
         | .error e => .error e
         | .ok tracks =>
           match validate_smf strict header tracks0.track_count_hint tracks.length with
           | .error e => .error e
           | .ok _ => .ok { header := header, tracks := tracks }) := rfl

/-- C5: under strict policy, parse fails with a malformed error whenever the
declared track count differs from the decoded track count, or the format is
single-track and the decoded track count is not 1; under lenient policy parse
succeeds in both situations, returning all tracks actually found. -/
theorem strict_validation_policy (c : EventCodec E) (raw : List Nat) (h : Header)
    (ts ts' : TrackIter) (tracks tracks' : List (List E)) :
    (parse true raw = .ok (h, ts) → generic_collect true c ts = .ok tracks →
      (ts.track_count_hint ≠ tracks.length ∨
        (h.format = Format.singleTrack ∧ tracks.length ≠ 1)) →
      (Smf.parse true c raw =
          .error (.malformed "file has a different amount of tracks than declared") ∨
       Smf.parse true c raw =
          .error (.malformed "singletrack format file has multiple tracks"))) ∧
    (parse false raw = .ok (h, ts') → generic_collect false c ts' = .ok tracks' →
      Smf.parse false c raw = .ok { header := h, tracks := tracks' }) := by
  constructor
  · intro hp hc hbad
    rw [smf_parse_eq]
    simp only [hp, hc]
    by_cases hne : ts.track_count_hint ≠ tracks.length
    · left
      unfold validate_smf
      rw [if_pos rfl, if_pos hne]
    · right
      have hfmt : h.format = Format.singleTrack ∧ tracks.length ≠ 1 := by
        cases hbad with
        | inl hx => exact absurd hx hne
        | inr hx => exact hx
      unfold validate_smf
      rw [if_pos rfl, if_neg hne, if_pos hfmt]
  · intro hp hc
    rw [smf_parse_eq]
    simp only [hp, hc]
    rfl

/-- Witness for C5: a header declaring 3 tracks over a file with 2 empty
track chunks — strict parse fails with a malformed error, lenient parse
succeeds with the 2 tracks. -/
theorem strict_validation_policy_witness :
    (Smf.parse true byteCodec
        (chunkBytes mthdId (Header.encode
            { format := Format.multiTrackSync, timing := Timing.metrical 96 } 3) ++
          chunkStream [RChunk.mtrk [], RChunk.mtrk []]) =
        .error (.malformed "file has a different amount of tracks than declared") ∨
     Smf.parse true byteCodec
        (chunkBytes mthdId (Header.encode
            { format := Format.multiTrackSync, timing := Timing.metrical 96 } 3) ++
          chunkStream [RChunk.mtrk [], RChunk.mtrk []]) =
        .error (.malformed "singletrack format file has multiple tracks")) ∧
    Smf.parse false byteCodec
        (chunkBytes mthdId (Header.encode
            { format := Format.multiTrackSync, timing := Timing.metrical 96 } 3) ++
          chunkStream [RChunk.mtrk [], RChunk.mtrk []]) =
      .ok { header := { format := Format.multiTrackSync, timing := Timing.metrical 96 },
            tracks := [[], []] } := by
  have hempty : ∀ strict : Bool,
      EventIter.collect strict byteCodec (EventIter.new []) = .ok ([] : List (Fin 256)) := by
    intro strict
    rw [EventIter.collect_eq]
    simp [EventIter.new]
  have hseq : ∀ strict : Bool,
      collectTracksSeq strict byteCodec
        { raw := chunkStream [RChunk.mtrk [], RChunk.mtrk []], track_count_hint := 3 } =
        .ok [[], []] := by
    intro strict
    rw [collectTracksSeq_stream strict byteCodec [RChunk.mtrk [], RChunk.mtrk []]
      (by decide) 3]
    simp [mtrkPayloads, mapExcept, hempty strict]
  have hthm := strict_validation_policy byteCodec
    (chunkBytes mthdId (Header.encode
        { format := Format.multiTrackSync, timing := Timing.metrical 96 } 3) ++
      chunkStream [RChunk.mtrk [], RChunk.mtrk []])
    { format := Format.multiTrackSync, timing := Timing.metrical 96 }
    { raw := chunkStream [RChunk.mtrk [], RChunk.mtrk []], track_count_hint := 3 }
    { raw := chunkStream [RChunk.mtrk [], RChunk.mtrk []], track_count_hint := 3 }
    [[], []] [[], []]
  exact ⟨hthm.1 (parse_mthd (by decide) (by decide))
      (generic_collect_of_seq_ok (hseq true)) (Or.inl (by decide)),
    hthm.2 (parse_mthd (by decide) (by decide))
      (generic_collect_of_seq_ok (hseq false))⟩

/-- C6: on a track span where the event codec fails at some position (bytes
remain at the end of the decode trace), lenient eager decode succeeds with
exactly the events decoded before the failure point, while strict eager
decode fails with the malformed "malformed event" error. -/
theorem lenient_truncation (c : EventCodec E) (raw : List Nat)
    (hfail : (decodeSteps c raw none).2.1 ≠ []) :
    EventIter.collect false c (EventIter.new raw) = .ok (decodeSteps c raw none).1 ∧
    EventIter.collect true c (EventIter.new raw) = .error (.malformed "malformed event") := by
  constructor
  · exact EventIter.collect_lenient c (EventIter.new raw)
  · rw [EventIter.collect_strict]
    simp only [EventIter.new]
    rw [if_neg hfail]

/-- Witness for C6: the byte 200 makes `haltCodec` fail after decoding two
events; lenient decode keeps them, strict decode errors. -/
theorem lenient_truncation_witness :
    EventIter.collect false haltCodec (EventIter.new [1, 2, 200, 3]) = .ok [1, 2] ∧
    EventIter.collect true haltCodec (EventIter.new [1, 2, 200, 3]) =
      .error (.malformed "malformed event") := by
  have hsteps : decodeSteps haltCodec [1, 2, 200, 3] none = ([1, 2], [200, 3], none) := by
    rw [decodeSteps_eq]
    simp only [haltCodec]
    norm_num
    rw [decodeSteps_eq]
    simp only [haltCodec]
    norm_num
    rw [decodeSteps_eq]
    simp only [haltCodec]
    norm_num
    simp
  have h := lenient_truncation haltCodec [1, 2, 200, 3] (by rw [hsteps]; simp)
  refine ⟨?_, h.2⟩
  rw [h.1, hsteps]

theorem readFrame_short (strict : Bool) {raw : List Nat} (hne : raw ≠ [])
    (hlen : raw.length < 8) : ∃ e, readFrame strict raw = .error e := by
  unfold readFrame
  rw [if_neg hne]
  by_cases h4 : 4 ≤ raw.length
  · have hs : split_checked 4 raw = some (raw.take 4, raw.drop 4) := by
      unfold split_checked
      rw [if_pos h4]
    have hu : readU32 (raw.drop 4) = none := by
      unfold readU32 split_checked
      rw [if_neg (by simp; omega)]
      rfl
    simp only [hs, hu]
    exact ⟨_, rfl⟩
  · have hs : split_checked 4 raw = none := by
      unfold split_checked
      rw [if_neg h4]
    simp only [hs]
    exact ⟨_, rfl⟩

theorem Chunk.read_short (strict : Bool) {raw : List Nat} (hne : raw ≠ [])
    (hlen : raw.length < 8) : ∃ e, Chunk.read strict raw = .error e := by
  obtain ⟨e, he⟩ := readFrame_short strict hne hlen
  refine ⟨e, ?_⟩
  rw [Chunk.read_eq]
  simp only [he]

/-- Shared fact: a valid header followed by a few bytes that cannot form a
chunk id/length parses successfully (zero tracks) under lenient policy and
fails with a malformed (not invalid) error under strict policy. -/
theorem smf_parse_junk {c : EventCodec E} {h : Header} {tc : Nat} {junk : List Nat}
    (hwf : h.timing.wf) (htc : tc < 2 ^ 16) (hne : junk ≠ []) (hlen : junk.length < 8) :
    Smf.parse false c (chunkBytes mthdId (Header.encode h tc) ++ junk) =
      .ok { header := h, tracks := [] } ∧
    Smf.parse true c (chunkBytes mthdId (Header.encode h tc) ++ junk) =
      .error (.malformed "invalid chunk") := by
  obtain ⟨eF, heF⟩ := Chunk.read_short false hne hlen
  obtain ⟨eT, heT⟩ := Chunk.read_short true hne hlen
  have hcnF : ChunkIter.next false junk = (some (.error eF), []) := by
    unfold ChunkIter.next
    rw [heF]
  have hcnT : ChunkIter.next true junk = (some (.error eT), []) := by
    unfold ChunkIter.next
    rw [heT]
  have hnextF : TrackIter.next false { raw := junk, track_count_hint := tc } =
      (none, { raw := [], track_count_hint := tc - 1 }) := by
    rw [TrackIter.next_eq]
    simp only [hcnF]
    rw [trackIter_next_nil]
    rfl
  have hnextT : TrackIter.next true { raw := junk, track_count_hint := tc } =
      (some (.error (.malformed "invalid chunk")), { raw := [], track_count_hint := tc - 1 }) := by
    rw [TrackIter.next_eq]
    simp only [hcnT]
    rfl
  have hseqF : collectTracksSeq false c { raw := junk, track_count_hint := tc } = .ok [] := by
    rw [collectTracksSeq_eq]
    simp only [hnextF]
  have hseqT : collectTracksSeq true c { raw := junk, track_count_hint := tc } =
      .error (.malformed "invalid chunk") := by
    rw [collectTracksSeq_eq]
    simp only [hnextT]
  have hthr : ¬(PARALLEL_ENABLE_THRESHOLD ≤ junk.length) := by
    unfold PARALLEL_ENABLE_THRESHOLD
    omega
  have hgF : generic_collect false c { raw := junk, track_count_hint := tc } = .ok [] := by
    unfold generic_collect
    rw [if_neg hthr]
    exact hseqF
  have hgT : generic_collect true c { raw := junk, track_count_hint := tc } =
      .error (.malformed "invalid chunk") := by
    unfold generic_collect
    rw [if_neg hthr]
    exact hseqT
  constructor
  · rw [smf_parse_eq]
    simp only [parse_mthd hwf htc, hgF]
    rfl
  · rw [smf_parse_eq]
    simp only [parse_mthd hwf htc, hgT]

/-- C4 counterexample: this input contains a chunk whose 4-byte id cannot be
read (three trailing bytes after a valid header), yet lenient parse SUCCEEDS
— the condition is not fatal regardless of policy as the claim states. -/
theorem unreadable_chunk_not_always_fatal :
    Smf.parse false byteCodec
        (chunkBytes mthdId (Header.encode
          { format := Format.multiTrackSync, timing := Timing.metrical 96 } 0) ++ [1, 2, 3]) =
      .ok { header := { format := Format.multiTrackSync, timing := Timing.metrical 96 },
            tracks := ([] : List (List (Fin 256))) } :=
  (smf_parse_junk (by decide) (by decide) (by decide) (by decide)).1

/-- C4 (amended): empty input, an input whose first chunk id/length cannot be
read, and a header-free stream of unknown chunks are all Invalid errors under
both policies; but an id/length read failure after the header chunk is NOT
fatal under lenient policy (the track list silently ends) and is a Malformed
— not Invalid — error under strict policy. -/
theorem invalid_inputs_policy (strict : Bool) (c : EventCodec E) (raw : List Nat)
    (cs : List RChunk) (h : Header) (tc : Nat) (junk : List Nat) :
    parse strict [] = .error (.invalid "no header chunk") ∧
    (raw ≠ [] → raw.length < 8 →
      parse strict raw = .error (.invalid "invalid midi header")) ∧
    ((∀ ch ∈ cs, ch.wf) → (∀ ch ∈ cs, ∀ x, ch ≠ RChunk.mtrk x) →
      parse strict (chunkStream cs) = .error (.invalid "no header chunk")) ∧
    (h.timing.wf → tc < 2 ^ 16 → junk ≠ [] → junk.length < 8 →
      Smf.parse false c (chunkBytes mthdId (Header.encode h tc) ++ junk) =
        .ok { header := h, tracks := [] } ∧
      Smf.parse true c (chunkBytes mthdId (Header.encode h tc) ++ junk) =
        .error (.malformed "invalid chunk")) := by
  refine ⟨parse_nil strict, fun hne hlen => parse_short hne hlen,
    fun hwf hunk => parse_no_header strict cs hwf hunk,
    fun hwf htc hne hlen => smf_parse_junk hwf htc hne hlen⟩

/-- Witness for the amended C4 at concrete inputs: empty input, a 3-byte
input, a lone unknown chunk, and a header followed by 3 junk bytes. -/
theorem invalid_inputs_policy_witness :
    parse true [] = .error (.invalid "no header chunk") ∧
    parse false [1, 2, 3] = .error (.invalid "invalid midi header") ∧
    parse true (chunkStream [RChunk.unknown [65, 66, 67, 68] [5]]) =
      .error (.invalid "no header chunk") ∧
    Smf.parse true byteCodec
        (chunkBytes mthdId (Header.encode
          { format := Format.multiTrackSync, timing := Timing.metrical 96 } 0) ++ [1, 2, 3]) =
      .error (.malformed "invalid chunk") := by
  refine ⟨(invalid_inputs_policy true byteCodec [] []
      { format := Format.multiTrackSync, timing := Timing.metrical 96 } 0 []).1,
    (invalid_inputs_policy false byteCodec [1, 2, 3] []
      { format := Format.multiTrackSync, timing := Timing.metrical 96 } 0 []).2.1
      (by decide) (by decide),
    (invalid_inputs_policy true byteCodec [] [RChunk.unknown [65, 66, 67, 68] [5]]
      { format := Format.multiTrackSync, timing := Timing.metrical 96 } 0 []).2.2.1
      (by decide) (by intro ch hch x hx; fin_cases hch; cases hx),
    ((invalid_inputs_policy true byteCodec [] []
      { format := Format.multiTrackSync, timing := Timing.metrical 96 } 0 [1, 2, 3]).2.2.2
      (by decide) (by decide) (by decide) (by decide)).2⟩

theorem mtrkPayloads_map_mtrk {α : Type} (g : α → List Nat) (l : List α) :
    mtrkPayloads (l.map fun t => RChunk.mtrk (g t)) = l.map g := by
  induction l with
  | nil => rfl
  | cons t ts ih =>
    unfold mtrkPayloads at ih ⊢
    simp only [List.map_cons, List.filterMap_cons]
    rw [ih]

/-- C1: for every container (header and tracks) that the encoder accepts,
parsing the written byte stream yields the container back — for any
round-tripping event codec, under lenient policy always and under strict
policy whenever the container satisfies the single-track invariant. -/
theorem parse_write_roundtrip {c : EventCodec E} (hrt : c.RoundTrip)
    (strict : Bool) (h : Header) (tracks : List (List E)) (bytes : List Nat)
    (hwf : h.timing.wf)
    (hsingle : strict = true → h.format = Format.singleTrack → tracks.length = 1)
    (hw : write c h tracks = .ok bytes) :
    Smf.parse strict c bytes = .ok { header := h, tracks := tracks } := by
  obtain ⟨hcount, hfit, hbytes⟩ := write_ok_decompose hw
  subst hbytes
  have hstream : (tracks.map fun t => chunkBytes mtrkId (writeEvents c none t)).flatten =
      chunkStream (tracks.map fun t => RChunk.mtrk (writeEvents c none t)) := by
    unfold chunkStream
    rw [List.map_map]
    rfl
  rw [hstream]
  have hwfs : ∀ ch ∈ tracks.map (fun t => RChunk.mtrk (writeEvents c none t)), ch.wf := by
    intro ch hch
    obtain ⟨t, ht, hch2⟩ := List.mem_map.mp hch
    rw [← hch2]
    exact hfit t ht
  have hpayloads : mtrkPayloads (tracks.map fun t => RChunk.mtrk (writeEvents c none t)) =
      tracks.map fun t => writeEvents c none t := by
    exact mtrkPayloads_map_mtrk (fun t => writeEvents c none t) tracks
  have hseq : collectTracksSeq strict c
      { raw := chunkStream (tracks.map fun t => RChunk.mtrk (writeEvents c none t)),
        track_count_hint := tracks.length } = .ok tracks := by
    rw [collectTracksSeq_stream strict c _ hwfs _, hpayloads]
    exact mapExcept_map_ok fun t ht => EventIter.collect_writeEvents hrt strict t none
  have hcol := generic_collect_of_seq_ok hseq
  rw [smf_parse_eq]
  simp only [parse_mthd hwf hcount, hcol]
  have hval : validate_smf strict h tracks.length tracks.length = .ok () := by
    unfold validate_smf
    cases strict with
    | false => rfl
    | true =>
      rw [if_pos rfl, if_neg (by simp)]
      rw [if_neg (by
        rintro ⟨hf, hn1⟩
        exact hn1 (hsingle rfl hf))]
  simp only [hval]

/-- Witness for C1: a concrete two-track container round-trips through
write and parse under strict policy. -/
theorem parse_write_roundtrip_witness :
    Smf.parse true byteCodec
        ((write byteCodec { format := Format.multiTrackSync, timing := Timing.metrical 96 }
            [[(60 : Fin 256), 61], [62]]).toOption.getD []) =
      .ok { header := { format := Format.multiTrackSync, timing := Timing.metrical 96 },
            tracks := [[(60 : Fin 256), 61], [62]] } :=
  parse_write_roundtrip byteCodec_roundtrip true
    { format := Format.multiTrackSync, timing := Timing.metrical 96 }
    [[(60 : Fin 256), 61], [62]] _ (by decide)
    (fun _ hf => absurd hf (by decide)) (by rfl)
